import Mathlib

/-
Verification of the HTML normalization and tree-materialization pipeline of
the website-cloner frontend.

The program's string rewrites are JavaScript global regex replaces over
literal (or near-literal) patterns.  They are embedded here as a left-to-right
scanner over character lists: at each position a step function either matches
(returning the replacement output and the remainder after the match, which is
not rescanned, as in JavaScript global replace) or does not (the character is
copied and scanning resumes at the next position).  A fuel argument bounds the
recursion; every wrapper passes the input length, which is always sufficient
because a match consumes at least one character.
-/

/-- One global-replace scan: at each position, either the step function
matches (emitting its output and resuming after the consumed part) or the
current character is copied verbatim. -/
def scanPass (step : List Char → Option (List Char × List Char)) :
    Nat → List Char → List Char
  | 0, s => s
  | _ + 1, [] => []
  | n + 1, c :: cs =>
    match step (c :: cs) with
    | some (out, rem) => out ++ scanPass step n rem
    | none => c :: scanPass step n cs

/-- Run a scan with fuel equal to the input length. -/
def runScan (step : List Char → Option (List Char × List Char))
    (s : List Char) : List Char :=
  scanPass step s.length s

/-- Step function of a literal global replace: match the pattern as a prefix,
emit the replacement, and resume after the pattern. -/
def replStep (pat rep : List Char) (t : List Char) :
    Option (List Char × List Char) :=
  if pat.isPrefixOf t then some (rep, t.drop pat.length) else none

/-- Global literal replace, the embedding of a JavaScript
str.replace(/literal/g, rep) call. -/
def replaceAll (pat rep s : List Char) : List Char :=
  runScan (replStep pat rep) s

/-- The pattern occurs nowhere in the string: no suffix of the string starts
with the pattern. -/
def noOccur (pat s : List Char) : Prop :=
  ∀ t, t <:+ s → ¬ pat <+: t

theorem noOccur_iff {pat s : List Char} :
    noOccur pat s ↔ ¬ pat <:+: s := by
  rw [List.infix_iff_prefix_suffix]
  constructor
  · rintro h ⟨t, hp, hs⟩
    exact h t hs hp
  · intro h t hs hp
    exact h ⟨t, hp, hs⟩

theorem noOccur_of_suffix {pat s t : List Char} (h : noOccur pat s)
    (hts : t <:+ s) : noOccur pat t :=
  fun u hu hp => h u (hu.trans hts) hp

theorem noOccur_mono {p q s : List Char} (hpq : p <+: q) (h : noOccur p s) :
    noOccur q s :=
  fun t ht hq => h t ht (hpq.trans hq)

theorem scanPass_id (step : List Char → Option (List Char × List Char)) :
    ∀ (n : Nat) (s : List Char), (∀ t, t <:+ s → step t = none) →
      scanPass step n s = s := by
  intro n
  induction n with
  | zero => intro s _; rfl
  | succ n ih =>
    intro s h
    match s with
    | [] => rfl
    | c :: cs =>
      have hc : step (c :: cs) = none := h (c :: cs) (List.suffix_refl _)
      simp only [scanPass, hc]
      rw [ih cs (fun t ht => h t (ht.trans (List.suffix_cons c cs)))]

theorem replaceAll_of_noOccur {pat rep s : List Char} (h : noOccur pat s) :
    replaceAll pat rep s = s := by
  apply scanPass_id
  intro t ht
  rw [replStep, if_neg]
  simp only [List.isPrefixOf_iff_prefix]
  exact h t ht

theorem prefix_append_cases {p u v : List Char} (h : p <+: u ++ v) :
    p <+: u ∨ (u <+: p ∧ p.drop u.length <+: v) := by
  induction u generalizing p with
  | nil => exact Or.inr ⟨List.nil_prefix, by simpa using h⟩
  | cons a u ih =>
    match p with
    | [] => exact Or.inl List.nil_prefix
    | b :: p' =>
      rw [List.cons_append, List.cons_prefix_cons] at h
      obtain ⟨rfl, h'⟩ := h
      rcases ih h' with h1 | ⟨h2, h3⟩
      · exact Or.inl (List.cons_prefix_cons.mpr ⟨rfl, h1⟩)
      · exact Or.inr ⟨List.cons_prefix_cons.mpr ⟨rfl, h2⟩, by simpa using h3⟩

theorem suffix_append_cases {t u v : List Char} (h : t <:+ u ++ v) :
    t <:+ v ∨ ∃ x, x <:+ u ∧ x ≠ [] ∧ t = x ++ v := by
  induction u with
  | nil => exact Or.inl (by simpa using h)
  | cons a u ih =>
    rw [List.cons_append, List.suffix_cons_iff] at h
    rcases h with rfl | h
    · exact Or.inr ⟨a :: u, List.suffix_refl _, by simp, by simp⟩
    · rcases ih h with h1 | ⟨x, hx, hne, rfl⟩
      · exact Or.inl h1
      · exact Or.inr ⟨x, hx.trans (List.suffix_cons a u), hne, rfl⟩

/-- Every prefix of a scan output either is a prefix of the (unchanged) input
or contains, after some copied characters, the beginning of an emitted
replacement block. -/
theorem prefix_scanPass_cases (pat rep : List Char) :
    ∀ (n : Nat) (s q : List Char),
      q <+: scanPass (replStep pat rep) n s →
      q <+: s ∨ ∃ u w, q = u ++ w ∧ w ≠ [] ∧
        (w <+: rep ∨ ∃ w', w = rep ++ w') := by
  intro n
  induction n with
  | zero => intro s q h; exact Or.inl h
  | succ n ih =>
    intro s q h
    match s with
    | [] =>
      rw [show scanPass (replStep pat rep) (n + 1) [] = [] from rfl] at h
      exact Or.inl (List.prefix_nil.mp h ▸ List.prefix_rfl)
    | c :: cs =>
      match q with
      | [] => exact Or.inl List.nil_prefix
      | b :: q' =>
        by_cases hm : pat <+: c :: cs
        · rw [show scanPass (replStep pat rep) (n + 1) (c :: cs) =
              rep ++ scanPass (replStep pat rep) n ((c :: cs).drop pat.length)
              by simp [scanPass, replStep, List.isPrefixOf_iff_prefix, hm]] at h
          rcases prefix_append_cases h with h1 | ⟨h2, _⟩
          · exact Or.inr ⟨[], b :: q', by simp, by simp, Or.inl h1⟩
          · obtain ⟨t, ht⟩ := h2
            exact Or.inr ⟨[], b :: q', by simp, by simp, Or.inr ⟨t, ht.symm⟩⟩
        · rw [show scanPass (replStep pat rep) (n + 1) (c :: cs) =
              c :: scanPass (replStep pat rep) n cs
              by simp [scanPass, replStep, List.isPrefixOf_iff_prefix, hm]] at h
          rw [List.cons_prefix_cons] at h
          obtain ⟨rfl, h'⟩ := h
          rcases ih cs q' h' with h1 | ⟨u, w, rfl, hwne, hor⟩
          · exact Or.inl (List.cons_prefix_cons.mpr ⟨rfl, h1⟩)
          · exact Or.inr ⟨b :: u, w, by simp, hwne, hor⟩

/-- Kill lemma: a global replace of a pattern by a replacement that can
neither contain the pattern nor recreate it across block boundaries leaves no
occurrence of the pattern in its output. -/
theorem noOccur_scanPass_self (pat rep : List Char) (hpat : pat ≠ [])
    (h1 : noOccur pat rep)
    (h2 : ∀ x, x <:+ rep → x ≠ [] → ¬ x <+: pat)
    (h3 : ∀ w, w <+: rep → w ≠ [] → ¬ w <:+ pat)
    (h4 : pat.length < rep.length) :
    ∀ (n : Nat) (s : List Char), s.length ≤ n →
      noOccur pat (scanPass (replStep pat rep) n s) := by
  intro n
  induction n with
  | zero =>
    intro s hs
    have hnil : s = [] := List.length_eq_zero.mp (Nat.le_zero.mp hs)
    subst hnil
    intro t ht hp
    rw [show scanPass (replStep pat rep) 0 [] = [] from rfl,
      List.suffix_nil] at ht
    subst ht
    exact hpat (List.prefix_nil.mp hp)
  | succ n ih =>
    intro s hs
    match s with
    | [] =>
      intro t ht hp
      rw [show scanPass (replStep pat rep) (n + 1) [] = [] from rfl] at ht
      rw [List.suffix_nil] at ht
      subst ht
      exact hpat (List.prefix_nil.mp hp)
    | c :: cs =>
      by_cases hm : pat <+: c :: cs
      · rw [show scanPass (replStep pat rep) (n + 1) (c :: cs) =
            rep ++ scanPass (replStep pat rep) n ((c :: cs).drop pat.length)
            by simp [scanPass, replStep, List.isPrefixOf_iff_prefix, hm]]
        have hdl : ((c :: cs).drop pat.length).length ≤ n := by
          rw [List.length_drop]
          have : 1 ≤ pat.length := List.length_pos.mpr hpat
          simp only [List.length_cons] at hs ⊢
          omega
        have ihR := ih ((c :: cs).drop pat.length) hdl
        intro t ht hp
        rcases suffix_append_cases ht with h5 | ⟨x, hx, hxne, rfl⟩
        · exact ihR t h5 hp
        · rcases prefix_append_cases hp with h6 | ⟨h7, _⟩
          · exact h1 x hx h6
          · exact h2 x hx hxne h7
      · rw [show scanPass (replStep pat rep) (n + 1) (c :: cs) =
            c :: scanPass (replStep pat rep) n cs
            by simp [scanPass, replStep, List.isPrefixOf_iff_prefix, hm]]
        have hcl : cs.length ≤ n := by
          simp only [List.length_cons] at hs; omega
        have ihT := ih cs hcl
        intro t ht hp
        rcases List.suffix_cons_iff.mp ht with rfl | h5
        · match pat, hpat with
          | p0 :: pt, _ =>
            rw [List.cons_prefix_cons] at hp
            obtain ⟨rfl, hpt⟩ := hp
            rcases prefix_scanPass_cases (p0 :: pt) rep n cs pt hpt with
              h6 | ⟨u, w, hq, hwne, hor⟩
            · exact hm (List.cons_prefix_cons.mpr ⟨rfl, h6⟩)
            · rcases hor with h8 | ⟨w', rfl⟩
              · refine h3 w h8 hwne ?_
                have : w <:+ pt := ⟨u, hq.symm⟩
                exact this.trans (List.suffix_cons p0 pt)
              · have hlen : pt.length = u.length + (rep.length + w'.length) := by
                  rw [hq]; simp
                have : (p0 :: pt).length < rep.length := h4
                simp only [List.length_cons] at this
                omega
        · exact ihT t h5 hp

/-- Preservation lemma: a global replace of one pattern cannot create an
occurrence of a different string that was absent from the input, provided the
replacement can neither contain that string nor complete it across block
boundaries. -/
theorem noOccur_scanPass_other (pat rep bad : List Char) (hbad : bad ≠ [])
    (c1 : noOccur bad rep)
    (c2 : ∀ x, x <:+ rep → x ≠ [] → ¬ x <+: bad)
    (c3 : ∀ w, w <+: rep → w ≠ [] → ¬ w <:+ bad)
    (c4 : ¬ rep <:+: bad) :
    ∀ (n : Nat) (s : List Char), noOccur bad s →
      noOccur bad (scanPass (replStep pat rep) n s) := by
  intro n
  induction n with
  | zero => intro s hs; exact hs
  | succ n ih =>
    intro s hs
    match s with
    | [] =>
      intro t ht hp
      rw [show scanPass (replStep pat rep) (n + 1) [] = [] from rfl] at ht
      rw [List.suffix_nil] at ht
      subst ht
      exact hbad (List.prefix_nil.mp hp)
    | c :: cs =>
      by_cases hm : pat <+: c :: cs
      · rw [show scanPass (replStep pat rep) (n + 1) (c :: cs) =
            rep ++ scanPass (replStep pat rep) n ((c :: cs).drop pat.length)
            by simp [scanPass, replStep, List.isPrefixOf_iff_prefix, hm]]
        have ihR := ih ((c :: cs).drop pat.length)
          (noOccur_of_suffix hs (List.drop_suffix _ _))
        intro t ht hp
        rcases suffix_append_cases ht with h5 | ⟨x, hx, hxne, rfl⟩
        · exact ihR t h5 hp
        · rcases prefix_append_cases hp with h6 | ⟨h7, _⟩
          · exact c1 x hx h6
          · exact c2 x hx hxne h7
      · rw [show scanPass (replStep pat rep) (n + 1) (c :: cs) =
            c :: scanPass (replStep pat rep) n cs
            by simp [scanPass, replStep, List.isPrefixOf_iff_prefix, hm]]
        have ihT := ih cs (noOccur_of_suffix hs (List.suffix_cons c cs))
        intro t ht hp
        rcases List.suffix_cons_iff.mp ht with rfl | h5
        · match bad, hbad with
          | b0 :: bt, _ =>
            rw [List.cons_prefix_cons] at hp
            obtain ⟨rfl, hbt⟩ := hp
            rcases prefix_scanPass_cases pat rep n cs bt hbt with
              h6 | ⟨u, w, hq, hwne, hor⟩
            · exact hs (b0 :: cs) (List.suffix_refl _)
                (List.cons_prefix_cons.mpr ⟨rfl, h6⟩)
            · rcases hor with h8 | ⟨w', rfl⟩
              · refine c3 w h8 hwne ?_
                have : w <:+ bt := ⟨u, hq.symm⟩
                exact this.trans (List.suffix_cons b0 bt)
              · refine c4 ?_
                have hw : rep ++ w' <:+ b0 :: bt := by
                  have h9 : rep ++ w' <:+ bt := ⟨u, hq.symm⟩
                  exact h9.trans (List.suffix_cons b0 bt)
                exact List.IsInfix.trans (List.prefix_append rep w').isInfix
                  hw.isInfix
        · exact ihT t h5 hp

/-
Embedding of sanitizeHTML (src/frontend/src/app/page.tsx, lines 66 to 92).
The nine substitution passes are the literal global replaces of lines 71-82;
the JavaScript replacement strings interpolate the base URL, so each
replacement is the pattern's fixed delimiter, then the base URL characters,
then the slash-led tail.  JavaScript expands dollar sequences inside a
replacement string; bases containing a dollar sign are therefore outside this
embedding, and the GoodBase predicate below excludes them.
-/

/-- Delimiter of the src attribute patterns: the characters of src=". -/
def srcKey : List Char := ['s', 'r', 'c', '=', '"']

/-- Delimiter of the href attribute patterns: the characters of href=". -/
def hrefKey : List Char := ['h', 'r', 'e', 'f', '=', '"']

/-- Delimiter of the CSS url patterns: the characters of url(. -/
def urlKey : List Char := ['u', 'r', 'l', '(']

/-- The bare-slash src trigger: the characters of src="/. -/
def srcT : List Char := srcKey ++ ['/']

/-- The bare-slash href trigger: the characters of href="/. -/
def hrefT : List Char := hrefKey ++ ['/']

/-- The bare-slash url trigger: the characters of url(/. -/
def urlT : List Char := urlKey ++ ['/']

/-- Tail of the assets patterns: the characters of assets/. -/
def assetsTail : List Char := ['a', 's', 's', 'e', 't', 's', '/']

/-- Tail of the videos patterns: the characters of videos/. -/
def videosTail : List Char := ['v', 'i', 'd', 'e', 'o', 's', '/']

/-- Passes 1 to 3 of sanitizeHTML: the /assets/ substitutions (lines 71-73). -/
def assetsPasses (B s : List Char) : List Char :=
  replaceAll (urlT ++ assetsTail) (urlKey ++ B ++ ['/'] ++ assetsTail)
    (replaceAll (hrefT ++ assetsTail) (hrefKey ++ B ++ ['/'] ++ assetsTail)
      (replaceAll (srcT ++ assetsTail) (srcKey ++ B ++ ['/'] ++ assetsTail) s))

/-- Passes 4 to 6 of sanitizeHTML: the bare-slash substitutions (lines
75-77). -/
def barePasses (B s : List Char) : List Char :=
  replaceAll urlT (urlKey ++ B ++ ['/'])
    (replaceAll hrefT (hrefKey ++ B ++ ['/'])
      (replaceAll srcT (srcKey ++ B ++ ['/']) s))

/-- Passes 7 to 9 of sanitizeHTML: the /videos/ substitutions (lines
80-82). -/
def videosPasses (B s : List Char) : List Char :=
  replaceAll (urlT ++ videosTail) (urlKey ++ B ++ ['/'] ++ videosTail)
    (replaceAll (hrefT ++ videosTail) (hrefKey ++ B ++ ['/'] ++ videosTail)
      (replaceAll (srcT ++ videosTail) (srcKey ++ B ++ ['/'] ++ videosTail) s))

/-- The whole substitution phase of sanitizeHTML, lines 71-82, in source
order. -/
def substPasses (B s : List Char) : List Char :=
  videosPasses B (barePasses B (assetsPasses B s))

/-- Case-insensitive prefix test, the embedding of a regex i flag over the
ASCII tag names used by the removal patterns. -/
def ciIsPrefixOf : List Char → List Char → Bool
  | [], _ => true
  | _ :: _, [] => false
  | p :: ps, c :: cs => decide (p.toLower = c.toLower) && ciIsPrefixOf ps cs

/-- Match an opening-tag shape at the head of the input: a less-than sign,
the tag name (case-insensitively), a greedy run of characters other than the
greater-than sign, then the greater-than sign.  Returns the remainder.  This
is the deterministic shape both removal regexes of lines 85 and 87 reduce to,
because the character class excludes the closing delimiter. -/
def openTagEnd (tag : List Char) : List Char → Option (List Char)
  | '<' :: r =>
    if ciIsPrefixOf tag r then
      match r.drop tag.length |>.dropWhile (fun c => c ≠ '>') with
      | '>' :: r4 => some r4
      | _ => none
    else none
  | _ => none

/-- Find the earliest case-insensitive closing tag and return the remainder
after it: the lazy dot-all part of the pair-removal regex of line 85. -/
def findCloseTag (tag : List Char) : List Char → Option (List Char)
  | [] => none
  | c :: cs =>
    if ciIsPrefixOf ('<' :: '/' :: tag ++ ['>']) (c :: cs) then
      some ((c :: cs).drop (tag.length + 3))
    else findCloseTag tag cs

/-- Step of the pair-removal regex of line 85: opening tag, lazy contents,
closing tag, replaced by the empty string. -/
def pairStep (tag : List Char) (t : List Char) :
    Option (List Char × List Char) :=
  (openTagEnd tag t).bind (fun r => (findCloseTag tag r).map (fun r2 => ([], r2)))

/-- Step of the self-closing removal regex of line 87, replaced by the empty
string. -/
def openStep (tag : List Char) (t : List Char) :
    Option (List Char × List Char) :=
  (openTagEnd tag t).map (fun r => ([], r))

/-- Both removal regexes for one tag, in the order of lines 85-88. -/
def removeForTag (tag : List Char) (s : List Char) : List Char :=
  runScan (openStep tag) (runScan (pairStep tag) s)

/-- The characters of the tag name meta. -/
def metaTag : List Char := ['m', 'e', 't', 'a']

/-- The characters of the tag name noscript. -/
def noscriptTag : List Char := ['n', 'o', 's', 'c', 'r', 'i', 'p', 't']

/-- The removal loop of lines 84-89 over tagsToRemove = [meta, noscript]. -/
def removeTags (s : List Char) : List Char :=
  removeForTag noscriptTag (removeForTag metaTag s)

/-- The embedding of sanitizeHTML: the nine substitution passes followed by
the tag-removal loop. -/
def sanitizeHTML (htmlString urlToScrape : String) : String :=
  String.mk (removeTags (substPasses urlToScrape.data htmlString.data))

/-- Variant written from the spec's words for the redundancy question: the
rewriter with the three /videos/ substitutions removed, everything else
unchanged. -/
def sanitizeHTMLNoVideos (htmlString urlToScrape : String) : String :=
  String.mk (removeTags (barePasses urlToScrape.data
    (assetsPasses urlToScrape.data htmlString.data)))

/-- Bases for which the substitution passes are well behaved: non-empty, not
starting with a slash, without quote or opening parenthesis (so a replacement
never completes a new pattern occurrence), and without a dollar sign (which
JavaScript would expand inside a replacement string). -/
def GoodBase (B : List Char) : Prop :=
  B ≠ [] ∧ B.head? ≠ some '/' ∧ '"' ∉ B ∧ '(' ∉ B ∧ '$' ∉ B

instance (B : List Char) : Decidable (GoodBase B) := by
  unfold GoodBase
  infer_instance

/-
Embedding of parseHTMLToTree (src/frontend/src/app/page.tsx, lines 94-123).
The function parses with the platform collaborator DOMParser in text/html
mode and then converts the children of the document element.  DOMParser is a
browser built-in, not code of this repository; it is modelled here, for the
fragment class exercised by the theorems below, by a tolerant tokenizer and a
stack-free recursive tree builder with the standard html/head/body synthesis:
leading head-only elements go to the synthesized head, everything else to the
synthesized body, and the document element's children are exactly the head
and body elements.  Void elements take no children; an unmatched closing tag
auto-closes the open element.  The full HTML5 algorithm (foster parenting,
formatting-element reconstruction, and similar) is outside the fragment used
here.
-/

/-- A DOM node as produced by the modelled parser: an element with tag name,
attributes in document order and child nodes, or a text node. -/
inductive DomNode where
  | elem (tag : String) (attrs : List (String × String)) (children : List DomNode)
  | text (s : String)
deriving Repr

/-- A token of the modelled tokenizer. -/
inductive Tok where
  | openTag (name : String) (attrs : List (String × String)) (selfClose : Bool)
  | closeTag (name : String)
  | textTok (s : String)
deriving Repr

/-- Characters allowed in tag and attribute names by the modelled parser. -/
def isNameChar (c : Char) : Bool := c.isAlphanum || decide (c = '-')

/-- Attribute-list parser: double-quoted, unquoted and bare attributes, the
forms occurring in the fragments considered here.  Returns the attributes,
whether the tag ended with a self-closing slash, and the remainder. -/
def parseAttrs : Nat → List Char → List (String × String) × Bool × List Char
  | 0, s => ([], false, s)
  | _ + 1, [] => ([], false, [])
  | n + 1, c :: rest =>
    if c = '>' then ([], false, rest)
    else if c = '/' then
      match rest with
      | '>' :: r => ([], true, r)
      | _ => parseAttrs n rest
    else if c.isWhitespace then parseAttrs n rest
    else
      let keep : Char → Bool := fun x =>
        !x.isWhitespace && !decide (x = '=') && !decide (x = '>') &&
          !decide (x = '/')
      let nm := ((c :: rest).takeWhile keep).map Char.toLower
      let r1 := (c :: rest).dropWhile keep
      match r1 with
      | '=' :: r3 =>
        match r3 with
        | '"' :: r5 =>
          let v := r5.takeWhile (fun x => x ≠ '"')
          let r6 := (r5.dropWhile (fun x => x ≠ '"')).drop 1
          let (as, sc, r7) := parseAttrs n r6
          ((String.mk nm, String.mk v) :: as, sc, r7)
        | _ =>
          let v := r3.takeWhile (fun x => !x.isWhitespace && !decide (x = '>'))
          let r6 := r3.dropWhile (fun x => !x.isWhitespace && !decide (x = '>'))
          let (as, sc, r7) := parseAttrs n r6
          ((String.mk nm, String.mk v) :: as, sc, r7)
      | _ =>
        let (as, sc, r7) := parseAttrs n r1
        ((String.mk nm, "") :: as, sc, r7)

/-- Tokenizer of the modelled parser: closing tags, opening tags with
attributes, and text runs; a stray less-than sign is tolerated as text. -/
def tokenizeF : Nat → List Char → List Tok
  | 0, _ => []
  | _ + 1, [] => []
  | n + 1, '<' :: '/' :: rest =>
    let nm := (rest.takeWhile isNameChar).map Char.toLower
    let r := (rest.dropWhile (fun c => c ≠ '>')).drop 1
    Tok.closeTag (String.mk nm) :: tokenizeF n r
  | n + 1, '<' :: c :: rest =>
    if c.isAlpha then
      let nm := (((c :: rest).takeWhile isNameChar).map Char.toLower)
      let afterName := (c :: rest).dropWhile isNameChar
      let (attrs, sc, r) := parseAttrs n afterName
      Tok.openTag (String.mk nm) attrs sc :: tokenizeF n r
    else
      Tok.textTok (String.mk ['<']) :: tokenizeF n (c :: rest)
  | n + 1, c :: rest =>
    let txt := c :: rest.takeWhile (fun x => x ≠ '<')
    Tok.textTok (String.mk txt) :: tokenizeF n (rest.dropWhile (fun x => x ≠ '<'))

/-- The HTML void elements: they never take children. -/
def isVoidTag (nm : String) : Bool :=
  ["area", "base", "br", "col", "embed", "hr", "img", "input", "link",
    "meta", "param", "source", "track", "wbr"].contains nm

/-- Tree builder over the token stream: returns the nodes parsed up to an
unmatched closing tag (or the end), plus the unconsumed remainder. -/
def parseNodes : Nat → List Tok → List DomNode × List Tok
  | 0, toks => ([], toks)
  | _ + 1, [] => ([], [])
  | n + 1, Tok.textTok s :: rest =>
    let (ns, r) := parseNodes n rest
    (DomNode.text s :: ns, r)
  | _ + 1, Tok.closeTag nm :: rest => ([], Tok.closeTag nm :: rest)
  | n + 1, Tok.openTag nm attrs sc :: rest =>
    if isVoidTag nm || sc then
      let (ns, r) := parseNodes n rest
      (DomNode.elem nm attrs [] :: ns, r)
    else
      let (children, r) := parseNodes n rest
      match r with
      | Tok.closeTag nm2 :: r2 =>
        if nm2 = nm then
          let (ns, r3) := parseNodes n r2
          (DomNode.elem nm attrs children :: ns, r3)
        else ([DomNode.elem nm attrs children], r)
      | _ => ([DomNode.elem nm attrs children], r)

/-- Elements that the parser places in the synthesized head when they lead
the document, as the platform parser does in the before-head insertion
mode. -/
def isHeadNode : DomNode → Bool
  | DomNode.elem tag _ _ =>
    ["base", "link", "meta", "noscript", "script", "style", "template",
      "title"].contains tag
  | DomNode.text _ => false

/-- The children of the document element produced by the modelled DOMParser:
the synthesized head (taking the leading head-only elements) and the
synthesized body (taking the rest). -/
def documentChildren (html : String) : List DomNode :=
  let toks := tokenizeF (html.data.length + 1) html.data
  let forest := (parseNodes (toks.length + 1) toks).1
  [DomNode.elem "head" [] (forest.takeWhile isHeadNode),
    DomNode.elem "body" [] (forest.dropWhile isHeadNode)]

/-- The tree node built by parseHTMLToTree: tag name, element children,
attributes (absent when the element has none), and the joined direct text
content. -/
inductive TreeNode where
  | mk (name : String) (children : List TreeNode)
      (attributes : Option (List (String × String))) (content : String)

/-- Tag name of a tree node. -/
def TreeNode.name : TreeNode → String
  | TreeNode.mk n _ _ _ => n

/-- Children of a tree node. -/
def TreeNode.children : TreeNode → List TreeNode
  | TreeNode.mk _ ch _ _ => ch

/-- Attributes of a tree node (absent when the element had none). -/
def TreeNode.attributes : TreeNode → Option (List (String × String))
  | TreeNode.mk _ _ a _ => a

/-- Direct text content of a tree node. -/
def TreeNode.content : TreeNode → String
  | TreeNode.mk _ _ _ c => c

/-- Remove leading and trailing whitespace, the char-list form of the trim
of line 114. -/
def trimChars (l : List Char) : List Char :=
  ((l.dropWhile Char.isWhitespace).reverse.dropWhile Char.isWhitespace).reverse

/-- Direct text content contributed by one child node: the trimmed text if
non-empty, nothing otherwise (lines 112-116). -/
def directText : DomNode → Option String
  | DomNode.text s =>
    if (trimChars s.data).isEmpty then none else some (String.mk (trimChars s.data))
  | _ => none

/-- The embedding of convertNodeToTree (lines 98-120): elements map to tree
nodes, other nodes to nothing; children are the converted child nodes,
attributes are present only when non-empty, and content joins the trimmed
direct text children with single spaces.  The fuel bounds the recursion
depth; callers pass the input length, which bounds the DOM depth. -/
def convertNodeToTree : Nat → DomNode → Option TreeNode
  | 0, _ => none
  | _ + 1, DomNode.text _ => none
  | n + 1, DomNode.elem tag attrs children =>
    some (TreeNode.mk (String.mk (tag.data.map Char.toLower))
      (children.filterMap (convertNodeToTree n))
      (if attrs.isEmpty then none else some attrs)
      (String.intercalate " " (children.filterMap directText)))

/-- The embedding of parseHTMLToTree: convert the children of the document
element of the parsed document. -/
def parseHTMLToTree (html : String) : List TreeNode :=
  (documentChildren html).filterMap
    (convertNodeToTree (html.data.length + 2))

/-
Embedding of the TreeView presenter (src/frontend/src/app/page.tsx, lines
33-65).  Each rendered node holds the structural fields of its TreeNode plus
one piece of local presentation state, the isExpanded flag; clicking a node
with children flips its own flag and nothing else (line 41), and leaf nodes
have no toggle affordance.
-/

/-- A presenter node: the structural fields plus the local isExpanded
flag. -/
inductive ViewNode where
  | mk (name : String) (attributes : Option (List (String × String)))
      (content : String) (isExpanded : Bool) (children : List ViewNode)

/-- Apply a function to the child at one index, leaving the rest alone. -/
def modifyChild (f : ViewNode → ViewNode) : Nat → List ViewNode → List ViewNode
  | _, [] => []
  | 0, v :: vs => f v :: vs
  | i + 1, v :: vs => v :: modifyChild f i vs

/-- The click handler of line 41 along a path of child indices: at the
addressed node, flip the isExpanded flag when the node has children and do
nothing otherwise. -/
def toggleAt : List Nat → ViewNode → ViewNode
  | [], ViewNode.mk nm attrs content expanded ch =>
    ViewNode.mk nm attrs content
      (if ch.isEmpty then expanded else !expanded) ch
  | i :: p, ViewNode.mk nm attrs content expanded ch =>
    ViewNode.mk nm attrs content expanded (modifyChild (toggleAt p) i ch)

mutual

/-- Forget the presentation state of a presenter node, keeping the
structural data. -/
def stripViewNode : ViewNode → TreeNode
  | ViewNode.mk nm attrs content _ ch =>
    TreeNode.mk nm (stripViewList ch) attrs content

/-- Forget the presentation state of a list of presenter nodes. -/
def stripViewList : List ViewNode → List TreeNode
  | [] => []
  | v :: vs => stripViewNode v :: stripViewList vs

end

/-
Embedding of the results page (src/unnamed/part_001).  The rendered clone
first strips code-fence markers with two global replaces (line 73) and then
applies processImageUrls (lines 12-23): the proxied-image rewrite whose
regex hard-codes the host www.orchids.app, the width/quality-suffix rewrite,
and the ampersand unescape.  decodeURIComponent is a platform built-in,
modelled by percent decoding of single bytes; the multi-byte UTF-8 sequences
and the malformed escapes on which the platform function throws are outside
the fragment used here.
-/

/-- The backtick character, written by code so that the source file contains
no literal backtick. -/
def backtick : Char := Char.ofNat 96

/-- The characters of the fence opener pattern: three backticks then html. -/
def fenceOpener : List Char := [backtick, backtick, backtick, 'h', 't', 'm', 'l']

/-- Three backticks. -/
def fenceTicks : List Char := [backtick, backtick, backtick]

/-- Step of the opener-stripping global replace of line 73: three backticks,
the tag html, and one optional newline (taken greedily, as the regex does),
replaced by the empty string. -/
def openerStep (t : List Char) : Option (List Char × List Char) :=
  if (fenceOpener ++ ['\n']).isPrefixOf t then some ([], t.drop 8)
  else if fenceOpener.isPrefixOf t then some ([], t.drop 7)
  else none

/-- Step of the closer-stripping global replace of line 73: one optional
newline (taken greedily) then three backticks, replaced by the empty
string. -/
def closerStep (t : List Char) : Option (List Char × List Char) :=
  if ('\n' :: fenceTicks).isPrefixOf t then some ([], t.drop 4)
  else if fenceTicks.isPrefixOf t then some ([], t.drop 3)
  else none

/-- The fence-stripping step of line 73: every opener occurrence removed,
then every closer occurrence removed, both global. -/
def stripCodeFences (s : String) : String :=
  String.mk (runScan closerStep (runScan openerStep s.data))

/-- Value of one hexadecimal digit. -/
def hexVal (c : Char) : Option Nat :=
  if c.isDigit then some (c.toNat - 48)
  else if 'A' ≤ c ∧ c ≤ 'F' then some (c.toNat - 55)
  else if 'a' ≤ c ∧ c ≤ 'f' then some (c.toNat - 87)
  else none

/-- Modelled decodeURIComponent: decode each valid percent escape to the
byte it denotes, leave everything else alone. -/
def decodePercent : List Char → List Char
  | '%' :: h1 :: h2 :: rest =>
    match hexVal h1, hexVal h2 with
    | some v1, some v2 => Char.ofNat (16 * v1 + v2) :: decodePercent rest
    | _, _ => '%' :: decodePercent (h1 :: h2 :: rest)
  | c :: rest => c :: decodePercent rest
  | [] => []

/-- The literal head of the proxied-image regex of lines 14-20, including
its hard-coded host. -/
def orchidsLit : List Char :=
  "src=\"https://www.orchids.app/_next/image?url=".data

/-- Step of the proxied-image rewrite: after the literal head, a non-empty
capture of characters other than quote and ampersand, an optional
ampersand-led run up to the closing quote, and the closing quote; the match
is replaced by a src attribute holding the decoded capture. -/
def imgStep (t : List Char) : Option (List Char × List Char) :=
  if orchidsLit.isPrefixOf t then
    let t1 := t.drop orchidsLit.length
    let cap := t1.takeWhile (fun c => !decide (c = '"') && !decide (c = '&'))
    let t2 := t1.drop cap.length
    if cap.isEmpty then none
    else
      match t2 with
      | '"' :: r => some (srcKey ++ decodePercent cap ++ ['"'], r)
      | '&' :: r =>
        match r.dropWhile (fun c => c ≠ '"') with
        | '"' :: r3 => some (srcKey ++ decodePercent cap ++ ['"'], r3)
        | _ => none
      | _ => none
  else none

/-- The characters of the escaped width parameter marker. -/
def ampWEq : List Char := "&amp;w=".data

/-- The characters of the escaped quality parameter marker. -/
def ampQEq : List Char := "&amp;q=".data

/-- Tail of the width/quality regex of line 21 after the lazy capture:
escaped width digits, escaped quality digits, closing quote.  Returns the
remainder after the quote. -/
def r2Tail (t : List Char) : Option (List Char) :=
  if ampWEq.isPrefixOf t then
    let t1 := t.drop 7
    let d1 := t1.takeWhile Char.isDigit
    if d1.isEmpty then none
    else
      let t2 := t1.drop d1.length
      if ampQEq.isPrefixOf t2 then
        let t3 := t2.drop 7
        let d2 := t3.takeWhile Char.isDigit
        if d2.isEmpty then none
        else
          match t3.drop d2.length with
          | '"' :: r => some r
          | _ => none
      else none
  else none

/-- The lazy capture of line 21: the shortest quote-free run after which the
width/quality tail matches. -/
def r2Capture : List Char → Option (List Char × List Char)
  | [] => none
  | c :: cs =>
    match r2Tail (c :: cs) with
    | some r => some ([], r)
    | none =>
      if c = '"' then none
      else
        match r2Capture cs with
        | some (cap, r) => some (c :: cap, r)
        | none => none

/-- Step of the width/quality-suffix rewrite of line 21, replaced by a src
attribute holding only the capture. -/
def widthStep (t : List Char) : Option (List Char × List Char) :=
  if srcKey.isPrefixOf t then
    match r2Capture (t.drop 5) with
    | some (cap, r) => some (srcKey ++ cap ++ ['"'], r)
    | none => none
  else none

/-- The characters of the escaped ampersand. -/
def ampL : List Char := ['&', 'a', 'm', 'p', ';']

/-- The embedding of processImageUrls (lines 12-23): proxied-image rewrite,
width/quality-suffix rewrite, ampersand unescape, in source order. -/
def processImageUrls (html : String) : String :=
  String.mk (replaceAll ampL ['&']
    (runScan widthStep (runScan imgStep html.data)))

/-- The whole clone-result post-processing of line 73: fence stripping, then
processImageUrls. -/
def renderedCloneHtml (generatedHtml : String) : String :=
  processImageUrls (stripCodeFences generatedHtml)

/-
Instance lemmas about the substitution reps.  A bare-slash trigger is one of
src="/, href="/, url(/.  For a GoodBase base URL, a replacement of the form
delimiter, base, slash contains no trigger, no nonempty suffix of it starts a
trigger, and no nonempty prefix of it ends one; these discharge the
hypotheses of the kill and preservation lemmas above.
-/

theorem suffix_concat_getLast {x r : List Char} {a : Char}
    (hx : x <:+ r ++ [a]) (hne : x ≠ []) : ∃ x', x = x' ++ [a] := by
  obtain ⟨u, hu⟩ := hx
  rcases List.eq_nil_or_concat x with rfl | ⟨x', b, rfl⟩
  · exact absurd rfl hne
  · simp only [List.concat_eq_append] at hu ⊢
    refine ⟨x', ?_⟩
    have h1 : (u ++ (x' ++ [b])).getLast? = some b := by
      rw [← List.append_assoc, List.getLast?_concat]
    rw [hu, List.getLast?_concat] at h1
    rw [Option.some.inj h1]

/-- No nonempty suffix of a slash-terminated replacement is a prefix of a
slash-terminated trigger whose delimiter is slash-free, unless the trigger
itself occurs in the replacement. -/
theorem no_suffix_starts_trigger (key' r' : List Char) (hks : '/' ∉ key')
    (h1 : noOccur (key' ++ ['/']) (r' ++ ['/'])) :
    ∀ x, x <:+ r' ++ ['/'] → x ≠ [] → ¬ x <+: key' ++ ['/'] := by
  intro x hx hne hp
  obtain ⟨x', rfl⟩ := suffix_concat_getLast hx hne
  rcases prefix_append_cases hp with h | ⟨h2, _⟩
  · exact hks (h.subset (by simp))
  · by_cases hc : x'.length + 1 ≤ key'.length
    · have hk : key' = x' ++ ['/'] := h2.eq_of_length_le (by simpa using hc)
      exact hks (hk ▸ (by simp))
    · have hlen : x'.length + 1 ≤ key'.length + 1 := by
        have := hp.length_le; simpa using this
      have hxeq : x' ++ ['/'] = key' ++ ['/'] :=
        hp.eq_of_length (by simp; omega)
      exact h1 (x' ++ ['/']) hx (by rw [hxeq])

/-- A trigger cannot occur in a string made of a delimiter, then characters
free of a marker character of the trigger, provided it does not start inside
the delimiter part. -/
theorem noOccur_delim_base_tail (bad key B tail : List Char) (mark : Char)
    (hm1 : mark ∈ bad) (hm2 : mark ∉ B) (hm3 : mark ∉ tail)
    (hlen : tail.length < bad.length)
    (hkey : ∀ x, x <:+ key → x ≠ [] → ¬ bad <+: x ++ (B ++ tail)) :
    noOccur bad (key ++ (B ++ tail)) := by
  intro t ht hp
  rcases suffix_append_cases ht with h | ⟨x, hx, hne, rfl⟩
  · rcases suffix_append_cases h with h' | ⟨y, hy, hyne, rfl⟩
    · have ha := hp.length_le
      have hb := h'.length_le
      omega
    · have hmm : mark ∈ y ++ tail := hp.subset hm1
      rcases List.mem_append.mp hmm with h1 | h1
      · exact hm2 (hy.subset h1)
      · exact hm3 h1
  · exact hkey x hx hne hp

theorem noOccur_src_srcRep (B : List Char) (hB1 : B ≠ [])
    (hB2 : B.head? ≠ some '/') (hB3 : '"' ∉ B) :
    noOccur srcT (srcKey ++ B ++ ['/']) := by
  rw [List.append_assoc]
  refine noOccur_delim_base_tail srcT srcKey B ['/'] '"' (by simp [srcT, srcKey])
    hB3 (by simp) (by simp [srcT, srcKey]) ?_
  intro x hx hne hp
  simp only [srcKey, List.suffix_cons_iff, List.suffix_nil] at hx
  rcases hx with rfl | rfl | rfl | rfl | rfl | rfl
  · simp only [srcT, srcKey, List.cons_append, List.nil_append,
      List.cons_prefix_cons, eq_self_iff_true, true_and] at hp
    rcases B with _ | ⟨b, B'⟩
    · exact hB1 rfl
    · rw [List.cons_append, List.cons_prefix_cons] at hp
      obtain ⟨hb, -⟩ := hp
      exact hB2 (by rw [← hb]; rfl)
  · simp only [srcT, srcKey, List.cons_append, List.nil_append,
      List.cons_prefix_cons] at hp
    exact absurd hp.1 (by decide)
  · simp only [srcT, srcKey, List.cons_append, List.nil_append,
      List.cons_prefix_cons] at hp
    exact absurd hp.1 (by decide)
  · simp only [srcT, srcKey, List.cons_append, List.nil_append,
      List.cons_prefix_cons] at hp
    exact absurd hp.1 (by decide)
  · simp only [srcT, srcKey, List.cons_append, List.nil_append,
      List.cons_prefix_cons] at hp
    exact absurd hp.1 (by decide)
  · exact hne rfl

theorem noOccur_href_hrefRep (B : List Char) (hB1 : B ≠ [])
    (hB2 : B.head? ≠ some '/') (hB3 : '"' ∉ B) :
    noOccur hrefT (hrefKey ++ B ++ ['/']) := by
  rw [List.append_assoc]
  refine noOccur_delim_base_tail hrefT hrefKey B ['/'] '"'
    (by simp [hrefT, hrefKey]) hB3 (by simp) (by simp [hrefT, hrefKey]) ?_
  intro x hx hne hp
  simp only [hrefKey, List.suffix_cons_iff, List.suffix_nil] at hx
  rcases hx with rfl | rfl | rfl | rfl | rfl | rfl | rfl
  · simp only [hrefT, hrefKey, List.cons_append, List.nil_append,
      List.cons_prefix_cons, eq_self_iff_true, true_and] at hp
    rcases B with _ | ⟨b, B'⟩
    · exact hB1 rfl
    · rw [List.cons_append, List.cons_prefix_cons] at hp
      obtain ⟨hb, -⟩ := hp
      exact hB2 (by rw [← hb]; rfl)
  · simp only [hrefT, hrefKey, List.cons_append, List.nil_append,
      List.cons_prefix_cons] at hp
    exact absurd hp.1 (by decide)
  · simp only [hrefT, hrefKey, List.cons_append, List.nil_append,
      List.cons_prefix_cons] at hp
    exact absurd hp.1 (by decide)
  · simp only [hrefT, hrefKey, List.cons_append, List.nil_append,
      List.cons_prefix_cons] at hp
    exact absurd hp.1 (by decide)
  · simp only [hrefT, hrefKey, List.cons_append, List.nil_append,
      List.cons_prefix_cons] at hp
    exact absurd hp.1 (by decide)
  · simp only [hrefT, hrefKey, List.cons_append, List.nil_append,
      List.cons_prefix_cons] at hp
    exact absurd hp.1 (by decide)
  · exact hne rfl

theorem noOccur_url_urlRep (B : List Char) (hB1 : B ≠ [])
    (hB2 : B.head? ≠ some '/') (hB4 : '(' ∉ B) :
    noOccur urlT (urlKey ++ B ++ ['/']) := by
  rw [List.append_assoc]
  refine noOccur_delim_base_tail urlT urlKey B ['/'] '('
    (by simp [urlT, urlKey]) hB4 (by simp) (by simp [urlT, urlKey]) ?_
  intro x hx hne hp
  simp only [urlKey, List.suffix_cons_iff, List.suffix_nil] at hx
  rcases hx with rfl | rfl | rfl | rfl | rfl
  · simp only [urlT, urlKey, List.cons_append, List.nil_append,
      List.cons_prefix_cons, eq_self_iff_true, true_and] at hp
    rcases B with _ | ⟨b, B'⟩
    · exact hB1 rfl
    · rw [List.cons_append, List.cons_prefix_cons] at hp
      obtain ⟨hb, -⟩ := hp
      exact hB2 (by rw [← hb]; rfl)
  · simp only [urlT, urlKey, List.cons_append, List.nil_append,
      List.cons_prefix_cons] at hp
    exact absurd hp.1 (by decide)
  · simp only [urlT, urlKey, List.cons_append, List.nil_append,
      List.cons_prefix_cons] at hp
    exact absurd hp.1 (by decide)
  · simp only [urlT, urlKey, List.cons_append, List.nil_append,
      List.cons_prefix_cons] at hp
    exact absurd hp.1 (by decide)
  · exact hne rfl

theorem noOccur_src_hrefRep (B : List Char) (hB3 : '"' ∉ B) :
    noOccur srcT (hrefKey ++ B ++ ['/']) := by
  rw [List.append_assoc]
  refine noOccur_delim_base_tail srcT hrefKey B ['/'] '"'
    (by simp [srcT, srcKey]) hB3 (by simp) (by simp [srcT, srcKey]) ?_
  intro x hx hne hp
  simp only [hrefKey, List.suffix_cons_iff, List.suffix_nil] at hx
  rcases hx with rfl | rfl | rfl | rfl | rfl | rfl | rfl
  all_goals
    first
    | exact hne rfl
    | · simp only [srcT, srcKey, List.cons_append, List.nil_append,
          List.cons_prefix_cons] at hp
        exact absurd hp.1 (by decide)

theorem noOccur_src_urlRep (B : List Char) (hB3 : '"' ∉ B) :
    noOccur srcT (urlKey ++ B ++ ['/']) := by
  rw [List.append_assoc]
  refine noOccur_delim_base_tail srcT urlKey B ['/'] '"'
    (by simp [srcT, srcKey]) hB3 (by simp) (by simp [srcT, srcKey]) ?_
  intro x hx hne hp
  simp only [urlKey, List.suffix_cons_iff, List.suffix_nil] at hx
  rcases hx with rfl | rfl | rfl | rfl | rfl
  all_goals
    first
    | exact hne rfl
    | · simp only [srcT, srcKey, List.cons_append, List.nil_append,
          List.cons_prefix_cons] at hp
        exact absurd hp.1 (by decide)

theorem noOccur_href_urlRep (B : List Char) (hB3 : '"' ∉ B) :
    noOccur hrefT (urlKey ++ B ++ ['/']) := by
  rw [List.append_assoc]
  refine noOccur_delim_base_tail hrefT urlKey B ['/'] '"'
    (by simp [hrefT, hrefKey]) hB3 (by simp) (by simp [hrefT, hrefKey]) ?_
  intro x hx hne hp
  simp only [urlKey, List.suffix_cons_iff, List.suffix_nil] at hx
  rcases hx with rfl | rfl | rfl | rfl | rfl
  all_goals
    first
    | exact hne rfl
    | · simp only [hrefT, hrefKey, List.cons_append, List.nil_append,
          List.cons_prefix_cons] at hp
        exact absurd hp.1 (by decide)

theorem noPref_src_srcRep (B : List Char) (hB1 : B ≠ [])
    (hB2 : B.head? ≠ some '/') :
    ∀ w, w <+: srcKey ++ B ++ ['/'] → w ≠ [] → ¬ w <:+ srcT := by
  intro w hw hne hs
  rw [List.append_assoc] at hw
  simp only [srcKey, List.cons_append, List.nil_append] at hw
  simp only [srcT, srcKey, List.cons_append, List.nil_append,
    List.suffix_cons_iff, List.suffix_nil] at hs
  rcases hs with rfl | rfl | rfl | rfl | rfl | rfl | rfl
  · simp only [List.cons_prefix_cons, eq_self_iff_true, true_and] at hw
    rcases B with _ | ⟨b, B'⟩
    · exact hB1 rfl
    · rw [List.cons_append, List.cons_prefix_cons] at hw
      obtain ⟨hb, -⟩ := hw
      exact hB2 (by rw [← hb]; rfl)
  · rw [List.cons_prefix_cons] at hw
    exact absurd hw.1 (by decide)
  · rw [List.cons_prefix_cons] at hw
    exact absurd hw.1 (by decide)
  · rw [List.cons_prefix_cons] at hw
    exact absurd hw.1 (by decide)
  · rw [List.cons_prefix_cons] at hw
    exact absurd hw.1 (by decide)
  · rw [List.cons_prefix_cons] at hw
    exact absurd hw.1 (by decide)
  · exact hne rfl

theorem noPref_href_hrefRep (B : List Char) (hB1 : B ≠ [])
    (hB2 : B.head? ≠ some '/') :
    ∀ w, w <+: hrefKey ++ B ++ ['/'] → w ≠ [] → ¬ w <:+ hrefT := by
  intro w hw hne hs
  rw [List.append_assoc] at hw
  simp only [hrefKey, List.cons_append, List.nil_append] at hw
  simp only [hrefT, hrefKey, List.cons_append, List.nil_append,
    List.suffix_cons_iff, List.suffix_nil] at hs
  rcases hs with rfl | rfl | rfl | rfl | rfl | rfl | rfl | rfl
  · simp only [List.cons_prefix_cons, eq_self_iff_true, true_and] at hw
    rcases B with _ | ⟨b, B'⟩
    · exact hB1 rfl
    · rw [List.cons_append, List.cons_prefix_cons] at hw
      obtain ⟨hb, -⟩ := hw
      exact hB2 (by rw [← hb]; rfl)
  · rw [List.cons_prefix_cons] at hw
    exact absurd hw.1 (by decide)
  · rw [List.cons_prefix_cons] at hw
    exact absurd hw.1 (by decide)
  · rw [List.cons_prefix_cons] at hw
    exact absurd hw.1 (by decide)
  · rw [List.cons_prefix_cons] at hw
    exact absurd hw.1 (by decide)
  · rw [List.cons_prefix_cons] at hw
    exact absurd hw.1 (by decide)
  · rw [List.cons_prefix_cons] at hw
    exact absurd hw.1 (by decide)
  · exact hne rfl

theorem noPref_url_urlRep (B : List Char) (hB1 : B ≠ [])
    (hB2 : B.head? ≠ some '/') :
    ∀ w, w <+: urlKey ++ B ++ ['/'] → w ≠ [] → ¬ w <:+ urlT := by
  intro w hw hne hs
  rw [List.append_assoc] at hw
  simp only [urlKey, List.cons_append, List.nil_append] at hw
  simp only [urlT, urlKey, List.cons_append, List.nil_append,
    List.suffix_cons_iff, List.suffix_nil] at hs
  rcases hs with rfl | rfl | rfl | rfl | rfl | rfl
  · simp only [List.cons_prefix_cons, eq_self_iff_true, true_and] at hw
    rcases B with _ | ⟨b, B'⟩
    · exact hB1 rfl
    · rw [List.cons_append, List.cons_prefix_cons] at hw
      obtain ⟨hb, -⟩ := hw
      exact hB2 (by rw [← hb]; rfl)
  · rw [List.cons_prefix_cons] at hw
    exact absurd hw.1 (by decide)
  · rw [List.cons_prefix_cons] at hw
    exact absurd hw.1 (by decide)
  · rw [List.cons_prefix_cons] at hw
    exact absurd hw.1 (by decide)
  · rw [List.cons_prefix_cons] at hw
    exact absurd hw.1 (by decide)
  · exact hne rfl

theorem noPref_src_hrefRep (B : List Char) :
    ∀ w, w <+: hrefKey ++ B ++ ['/'] → w ≠ [] → ¬ w <:+ srcT := by
  intro w hw hne hs
  rw [List.append_assoc] at hw
  simp only [hrefKey, List.cons_append, List.nil_append] at hw
  simp only [srcT, srcKey, List.cons_append, List.nil_append,
    List.suffix_cons_iff, List.suffix_nil] at hs
  rcases hs with rfl | rfl | rfl | rfl | rfl | rfl | rfl
  all_goals
    first
    | exact hne rfl
    | · rw [List.cons_prefix_cons] at hw
        exact absurd hw.1 (by decide)

theorem noPref_src_urlRep (B : List Char) :
    ∀ w, w <+: urlKey ++ B ++ ['/'] → w ≠ [] → ¬ w <:+ srcT := by
  intro w hw hne hs
  rw [List.append_assoc] at hw
  simp only [urlKey, List.cons_append, List.nil_append] at hw
  simp only [srcT, srcKey, List.cons_append, List.nil_append,
    List.suffix_cons_iff, List.suffix_nil] at hs
  rcases hs with rfl | rfl | rfl | rfl | rfl | rfl | rfl
  all_goals
    first
    | exact hne rfl
    | · rw [List.cons_prefix_cons] at hw
        exact absurd hw.1 (by decide)

theorem noPref_href_urlRep (B : List Char) :
    ∀ w, w <+: urlKey ++ B ++ ['/'] → w ≠ [] → ¬ w <:+ hrefT := by
  intro w hw hne hs
  rw [List.append_assoc] at hw
  simp only [urlKey, List.cons_append, List.nil_append] at hw
  simp only [hrefT, hrefKey, List.cons_append, List.nil_append,
    List.suffix_cons_iff, List.suffix_nil] at hs
  rcases hs with rfl | rfl | rfl | rfl | rfl | rfl | rfl | rfl
  all_goals
    first
    | exact hne rfl
    | · rw [List.cons_prefix_cons] at hw
        exact absurd hw.1 (by decide)

/-
Consequences for the three bare-slash passes of sanitizeHTML under a
GoodBase base URL: each pass eliminates its own trigger and preserves the
absence of the earlier ones, so after the bare-slash passes no trigger
occurs anywhere in the string.
-/

theorem kill_src (B s : List Char) (hG : GoodBase B) :
    noOccur srcT (replaceAll srcT (srcKey ++ B ++ ['/']) s) := by
  obtain ⟨hB1, hB2, hB3, hB4, hB5⟩ := hG
  exact noOccur_scanPass_self srcT (srcKey ++ B ++ ['/'])
    (by simp [srcT, srcKey])
    (noOccur_src_srcRep B hB1 hB2 hB3)
    (no_suffix_starts_trigger srcKey (srcKey ++ B) (by decide)
      (noOccur_src_srcRep B hB1 hB2 hB3))
    (noPref_src_srcRep B hB1 hB2)
    (by simp [srcT, srcKey]; exact List.length_pos.mpr hB1)
    s.length s (Nat.le_refl _)

theorem kill_href (B s : List Char) (hG : GoodBase B) :
    noOccur hrefT (replaceAll hrefT (hrefKey ++ B ++ ['/']) s) := by
  obtain ⟨hB1, hB2, hB3, hB4, hB5⟩ := hG
  exact noOccur_scanPass_self hrefT (hrefKey ++ B ++ ['/'])
    (by simp [hrefT, hrefKey])
    (noOccur_href_hrefRep B hB1 hB2 hB3)
    (no_suffix_starts_trigger hrefKey (hrefKey ++ B) (by decide)
      (noOccur_href_hrefRep B hB1 hB2 hB3))
    (noPref_href_hrefRep B hB1 hB2)
    (by simp [hrefT, hrefKey]; exact List.length_pos.mpr hB1)
    s.length s (Nat.le_refl _)

theorem kill_url (B s : List Char) (hG : GoodBase B) :
    noOccur urlT (replaceAll urlT (urlKey ++ B ++ ['/']) s) := by
  obtain ⟨hB1, hB2, hB3, hB4, hB5⟩ := hG
  exact noOccur_scanPass_self urlT (urlKey ++ B ++ ['/'])
    (by simp [urlT, urlKey])
    (noOccur_url_urlRep B hB1 hB2 hB4)
    (no_suffix_starts_trigger urlKey (urlKey ++ B) (by decide)
      (noOccur_url_urlRep B hB1 hB2 hB4))
    (noPref_url_urlRep B hB1 hB2)
    (by simp [urlT, urlKey]; exact List.length_pos.mpr hB1)
    s.length s (Nat.le_refl _)

theorem pres_src_hrefPass (B s : List Char) (hG : GoodBase B)
    (h : noOccur srcT s) :
    noOccur srcT (replaceAll hrefT (hrefKey ++ B ++ ['/']) s) := by
  obtain ⟨hB1, hB2, hB3, hB4, hB5⟩ := hG
  exact noOccur_scanPass_other hrefT (hrefKey ++ B ++ ['/']) srcT
    (by simp [srcT, srcKey])
    (noOccur_src_hrefRep B hB3)
    (no_suffix_starts_trigger srcKey (hrefKey ++ B) (by decide)
      (noOccur_src_hrefRep B hB3))
    (noPref_src_hrefRep B)
    (fun hinf => absurd
      (hinf.subset (show 'h' ∈ hrefKey ++ B ++ ['/'] by simp [hrefKey]))
      (by decide))
    s.length s h

theorem pres_src_urlPass (B s : List Char) (hG : GoodBase B)
    (h : noOccur srcT s) :
    noOccur srcT (replaceAll urlT (urlKey ++ B ++ ['/']) s) := by
  obtain ⟨hB1, hB2, hB3, hB4, hB5⟩ := hG
  exact noOccur_scanPass_other urlT (urlKey ++ B ++ ['/']) srcT
    (by simp [srcT, srcKey])
    (noOccur_src_urlRep B hB3)
    (no_suffix_starts_trigger srcKey (urlKey ++ B) (by decide)
      (noOccur_src_urlRep B hB3))
    (noPref_src_urlRep B)
    (fun hinf => absurd
      (hinf.subset (show 'u' ∈ urlKey ++ B ++ ['/'] by simp [urlKey]))
      (by decide))
    s.length s h

theorem pres_href_urlPass (B s : List Char) (hG : GoodBase B)
    (h : noOccur hrefT s) :
    noOccur hrefT (replaceAll urlT (urlKey ++ B ++ ['/']) s) := by
  obtain ⟨hB1, hB2, hB3, hB4, hB5⟩ := hG
  exact noOccur_scanPass_other urlT (urlKey ++ B ++ ['/']) hrefT
    (by simp [hrefT, hrefKey])
    (noOccur_href_urlRep B hB3)
    (no_suffix_starts_trigger hrefKey (urlKey ++ B) (by decide)
      (noOccur_href_urlRep B hB3))
    (noPref_href_urlRep B)
    (fun hinf => absurd
      (hinf.subset (show 'u' ∈ urlKey ++ B ++ ['/'] by simp [urlKey]))
      (by decide))
    s.length s h

/-- After the bare-slash passes with a GoodBase base URL, none of the three
triggers occurs anywhere in the string. -/
theorem barePasses_noTriggers (B s : List Char) (hG : GoodBase B) :
    noOccur srcT (barePasses B s) ∧ noOccur hrefT (barePasses B s) ∧
      noOccur urlT (barePasses B s) := by
  rw [barePasses]
  refine ⟨?_, ?_, ?_⟩
  · exact pres_src_urlPass B _ hG (pres_src_hrefPass B _ hG (kill_src B s hG))
  · exact pres_href_urlPass B _ hG (kill_href B _ hG)
  · exact kill_url B _ hG

/-- When no trigger occurs in a string, the three /videos/ substitutions do
nothing: each /videos/ pattern extends a trigger. -/
theorem videosPasses_id (B s : List Char) (h1 : noOccur srcT s)
    (h2 : noOccur hrefT s) (h3 : noOccur urlT s) : videosPasses B s = s := by
  rw [videosPasses,
    replaceAll_of_noOccur (noOccur_mono (List.prefix_append srcT videosTail) h1),
    replaceAll_of_noOccur (noOccur_mono (List.prefix_append hrefT videosTail) h2),
    replaceAll_of_noOccur (noOccur_mono (List.prefix_append urlT videosTail) h3)]

/-- When no trigger occurs in a string, the three /assets/ substitutions do
nothing. -/
theorem assetsPasses_id (B s : List Char) (h1 : noOccur srcT s)
    (h2 : noOccur hrefT s) (h3 : noOccur urlT s) : assetsPasses B s = s := by
  rw [assetsPasses,
    replaceAll_of_noOccur (noOccur_mono (List.prefix_append srcT assetsTail) h1),
    replaceAll_of_noOccur (noOccur_mono (List.prefix_append hrefT assetsTail) h2),
    replaceAll_of_noOccur (noOccur_mono (List.prefix_append urlT assetsTail) h3)]

/-- When no trigger occurs in a string, the three bare-slash substitutions do
nothing. -/
theorem barePasses_id (B s : List Char) (h1 : noOccur srcT s)
    (h2 : noOccur hrefT s) (h3 : noOccur urlT s) : barePasses B s = s := by
  rw [barePasses, replaceAll_of_noOccur h1, replaceAll_of_noOccur h2,
    replaceAll_of_noOccur h3]

/-- For a GoodBase base URL the /videos/ passes are unreachable: the whole
substitution phase computes what the phase without them computes. -/
theorem substPasses_eq_noVideos (B s : List Char) (hG : GoodBase B) :
    substPasses B s = barePasses B (assetsPasses B s) := by
  obtain ⟨h1, h2, h3⟩ := barePasses_noTriggers B (assetsPasses B s) hG
  rw [substPasses, videosPasses_id B _ h1 h2 h3]

/-- For a GoodBase base URL the substitution phase is idempotent. -/
theorem substPasses_idem (B s : List Char) (hG : GoodBase B) :
    substPasses B (substPasses B s) = substPasses B s := by
  rw [substPasses_eq_noVideos B s hG]
  obtain ⟨h1, h2, h3⟩ := barePasses_noTriggers B (assetsPasses B s) hG
  rw [substPasses, assetsPasses_id B _ h1 h2 h3, barePasses_id B _ h1 h2 h3,
    videosPasses_id B _ h1 h2 h3]

/-
Helper lemmas for the fence-stripping step: on a backtick-free body wrapped
in a single fence, the opener pass removes exactly the opener and the closer
pass removes exactly the closer.
-/

theorem scanPass_nil (step : List Char → Option (List Char × List Char))
    (n : Nat) : scanPass step n [] = [] := by
  cases n <;> rfl

theorem openerStep_none_of_no_ticks {t u : List Char}
    (hs : t <:+ u ++ ('\n' :: fenceTicks)) (hu : backtick ∉ u) :
    openerStep t = none := by
  have hnp : ¬ fenceOpener <+: t := by
    intro hp
    rcases suffix_append_cases hs with h1 | ⟨x, hx, hxne, rfl⟩
    · simp only [fenceTicks, List.suffix_cons_iff, List.suffix_nil] at h1
      rcases h1 with rfl | rfl | rfl | rfl | rfl
      all_goals
        exact absurd (hp.length_le) (by simp [fenceOpener])
    · match x, hxne with
      | c :: x', _ =>
        rw [List.cons_append] at hp
        rw [show fenceOpener
            = backtick :: [backtick, backtick, 'h', 't', 'm', 'l']
            from rfl, List.cons_prefix_cons] at hp
        exact hu (hx.subset (hp.1 ▸ List.mem_cons_self c x'))
  rw [openerStep, if_neg, if_neg]
  · simpa [List.isPrefixOf_iff_prefix] using hnp
  · simp only [List.isPrefixOf_iff_prefix]
    intro hp
    exact hnp ((List.prefix_append fenceOpener ['\n']).trans hp)

theorem scanPass_cons_some (step : List Char → Option (List Char × List Char))
    (c : Char) (cs : List Char) (n : Nat) {out rem : List Char}
    (h : step (c :: cs) = some (out, rem)) :
    scanPass step (n + 1) (c :: cs) = out ++ scanPass step n rem := by
  simp [scanPass, h]

theorem scanPass_cons_none (step : List Char → Option (List Char × List Char))
    (c : Char) (cs : List Char) (n : Nat) (h : step (c :: cs) = none) :
    scanPass step (n + 1) (c :: cs) = c :: scanPass step n cs := by
  simp [scanPass, h]

theorem openers_run (l : List Char) (h : backtick ∉ l) :
    runScan openerStep ((fenceOpener ++ ['\n']) ++ (l ++ ('\n' :: fenceTicks)))
      = l ++ ('\n' :: fenceTicks) := by
  have hcond : (fenceOpener ++ ['\n']).isPrefixOf
      ((fenceOpener ++ ['\n']) ++ (l ++ ('\n' :: fenceTicks))) = true :=
    List.isPrefixOf_iff_prefix.mpr (List.prefix_append _ _)
  have hstep : openerStep ((fenceOpener ++ ['\n']) ++ (l ++ ('\n' :: fenceTicks)))
      = some ([], l ++ ('\n' :: fenceTicks)) := by
    rw [openerStep, if_pos hcond]
    rw [show (8 : Nat) = (fenceOpener ++ ['\n']).length from rfl, List.drop_left]
  have hlen : ((fenceOpener ++ ['\n']) ++ (l ++ ('\n' :: fenceTicks))).length
      = ((l ++ ('\n' :: fenceTicks)).length + 7) + 1 := rfl
  have hcons : (fenceOpener ++ ['\n']) ++ (l ++ ('\n' :: fenceTicks))
      = backtick :: (backtick :: backtick :: 'h' :: 't' :: 'm' :: 'l' :: '\n'
          :: (l ++ ('\n' :: fenceTicks))) := rfl
  rw [runScan, hlen, hcons]
  rw [scanPass_cons_some openerStep _ _ _ (hcons ▸ hstep)]
  rw [List.nil_append]
  exact scanPass_id openerStep _ _
    (fun t ht => openerStep_none_of_no_ticks ht h)

theorem closers_run : ∀ (l : List Char), backtick ∉ l →
    ∀ n, l.length + 4 ≤ n →
      scanPass closerStep n (l ++ ('\n' :: fenceTicks)) = l := by
  intro l
  induction l with
  | nil =>
    intro _ n hn
    rcases n with _ | m
    · omega
    · rw [List.nil_append,
        show ('\n' :: fenceTicks)
          = '\n' :: (backtick :: backtick :: backtick :: []) from rfl,
        scanPass_cons_some closerStep _ _ _
          (show closerStep ('\n' :: (backtick :: backtick :: backtick :: []))
            = some ([], []) from rfl),
        scanPass_nil, List.append_nil]
  | cons c l' ih =>
    intro h n hn
    rcases n with _ | m
    · simp at hn
    · have hc : c ≠ backtick := fun hcb =>
        h (hcb ▸ List.mem_cons_self c l')
      have hn1 : ¬ (('\n' :: fenceTicks).isPrefixOf
          ((c :: l') ++ ('\n' :: fenceTicks)) = true) := by
        simp only [List.isPrefixOf_iff_prefix, List.cons_append,
          List.cons_prefix_cons]
        rintro ⟨h1, h2⟩
        rcases l' with _ | ⟨d, l''⟩
        · rw [List.nil_append,
            show fenceTicks = backtick :: [backtick, backtick] from rfl,
            List.cons_prefix_cons] at h2
          exact absurd h2.1 (by decide)
        · rw [List.cons_append,
            show fenceTicks = backtick :: [backtick, backtick] from rfl,
            List.cons_prefix_cons] at h2
          refine h ?_
          rw [h2.1]
          exact List.mem_cons_of_mem c (List.mem_cons_self d l'')
      have hn2 : ¬ (fenceTicks.isPrefixOf
          ((c :: l') ++ ('\n' :: fenceTicks)) = true) := by
        simp only [List.isPrefixOf_iff_prefix, List.cons_append]
        rw [show fenceTicks = backtick :: [backtick, backtick] from rfl,
          List.cons_prefix_cons]
        rintro ⟨h1, -⟩
        exact hc h1.symm
      have hcstep : closerStep ((c :: l') ++ ('\n' :: fenceTicks)) = none := by
        rw [closerStep, if_neg hn1, if_neg hn2]
      rw [List.cons_append,
        scanPass_cons_none closerStep _ _ _ (by rw [← List.cons_append]; exact hcstep)]
      have hle : l'.length + 4 ≤ m := by
        simp only [List.length_cons] at hn; omega
      rw [ih (fun hm => h (List.mem_cons_of_mem c hm)) m hle]

/-- Helper for the presenter frame property: modifying one child with a
structure-preserving function preserves the stripped child list. -/
theorem stripViewList_modifyChild (f : ViewNode → ViewNode)
    (hf : ∀ v, stripViewNode (f v) = stripViewNode v) :
    ∀ (i : Nat) (l : List ViewNode),
      stripViewList (modifyChild f i l) = stripViewList l := by
  intro i
  induction i with
  | zero =>
    intro l
    rcases l with _ | ⟨v, vs⟩
    · rfl
    · simp only [modifyChild, stripViewList, hf]
  | succ i ih =>
    intro l
    rcases l with _ | ⟨v, vs⟩
    · rfl
    · simp only [modifyChild, stripViewList, ih]

/-- Identity of the whole substitution phase on trigger-free input: every one
of the nine patterns extends one of the three bare-slash triggers, so nothing
matches. -/
theorem substPasses_id (B s : List Char) (h1 : noOccur srcT s)
    (h2 : noOccur hrefT s) (h3 : noOccur urlT s) : substPasses B s = s := by
  rw [substPasses, assetsPasses_id B s h1 h2 h3, barePasses_id B s h1 h2 h3,
    videosPasses_id B s h1 h2 h3]

/-- Claim C1, counterexample: the tree builder applied to the empty string
does not return an empty sequence; parseHTMLToTree maps over the children of
the document element, and the parser synthesizes head and body elements even
for empty input. -/
theorem build_empty_not_nil : parseHTMLToTree "" ≠ [] := by
  intro hcontra
  have h2 : (parseHTMLToTree "").length = 2 := rfl
  rw [hcontra] at h2
  exact absurd h2 (by decide)

/-- Claim C1, amended: the tree builder returns the synthesized head and
body wrappers: on the empty string it returns the two empty head and body
nodes, and on a single div element it returns head and body where body's
single child is the node with tagName div, textContent x and no children. -/
theorem build_wraps_forest_in_head_body :
    parseHTMLToTree "" = [TreeNode.mk "head" [] none "",
      TreeNode.mk "body" [] none ""] ∧
    parseHTMLToTree "<div>x</div>" = [TreeNode.mk "head" [] none "",
      TreeNode.mk "body" [TreeNode.mk "div" [] none "x"] none ""] :=
  ⟨rfl, rfl⟩

/-- Claim C2, counterexample: an absolute URL does not always appear
byte-identical in the rewriter output, because the tag-removal phase can
delete the element around it; here the whole noscript element, absolute src
included, is removed, while the input did contain the absolute reference. -/
theorem absolute_url_deleted_with_noscript :
    sanitizeHTML "<noscript><img src=\"https://a.com/x.png\"></noscript>"
        "https://ex.com" = "" ∧
    "src=\"https://a.com/x.png".data <:+:
      "<noscript><img src=\"https://a.com/x.png\"></noscript>".data :=
  ⟨by decide, by decide⟩

/-- Claim C2, amended: the URL-prefixing substitution passes never alter
absolute URLs: on any html containing no occurrence of the three bare-slash
triggers src="/, href="/, url(/ (in particular, html whose resource
references all carry a scheme), the whole substitution phase is the
identity for every base URL.  The tag-removal phase, however, can delete
absolute references inside removed meta or noscript elements. -/
theorem subst_phase_fixes_trigger_free_html (h B : List Char)
    (h1 : noOccur srcT h) (h2 : noOccur hrefT h) (h3 : noOccur urlT h) :
    substPasses B h = h :=
  substPasses_id B h h1 h2 h3

/-- Witness for the amended claim C2 at a concrete absolute-URL input. -/
theorem subst_phase_fixes_trigger_free_html_witness :
    substPasses "https://ex.com".data "<img src=\"https://a.com/x.png\">".data
      = "<img src=\"https://a.com/x.png\">".data :=
  subst_phase_fixes_trigger_free_html _ _
    (noOccur_iff.mpr (by decide))
    (noOccur_iff.mpr (by decide))
    (noOccur_iff.mpr (by decide))

/-- Claim C3, counterexample: the rewriter is not idempotent, because the
tag-removal phase can create a fresh bare-slash occurrence by juxtaposition:
removing the meta element here leaves src="/a, which a second run rewrites
again. -/
theorem rewriter_not_idempotent_meta_split :
    sanitizeHTML (sanitizeHTML "src<meta>x</meta>=\"/a" "https://ex.com")
        "https://ex.com"
      ≠ sanitizeHTML "src<meta>x</meta>=\"/a" "https://ex.com" := by decide

/-- Claim C3, amended: the URL-prefixing substitution phase (steps 1 to 3)
is idempotent for every html and every GoodBase base URL: after one pass no
occurrence of a bare-slash or /assets/ pattern remains, so a second pass
changes nothing.  The full rewriter is not idempotent in general because tag
removal can create new pattern occurrences by juxtaposition. -/
theorem subst_phase_idempotent_good_base (h B : List Char) (hG : GoodBase B) :
    substPasses B (substPasses B h) = substPasses B h :=
  substPasses_idem B h hG

/-- Witness for the amended claim C3 at a concrete input and base. -/
theorem subst_phase_idempotent_good_base_witness :
    substPasses "https://ex.com".data
        (substPasses "https://ex.com".data "<img src=\"/assets/a.png\">".data)
      = substPasses "https://ex.com".data "<img src=\"/assets/a.png\">".data :=
  subst_phase_idempotent_good_base _ _ (by decide)

/-- Claim C4, counterexample: on the meta example the built tree does not
have a single root div: the roots are the synthesized head and body
wrappers. -/
theorem meta_example_tree_roots_not_div :
    (parseHTMLToTree (sanitizeHTML
        "<div><meta charset=\"utf-8\"><p>hi</p></div>" "https://ex.com")).map
        TreeNode.name
      ≠ ["div"] := by decide

/-- Claim C4, amended: for every base URL the rewriter removes the meta
element from the example, and the tree built from the result is the head and
body pair in which body's single child is the div whose single child is the
p node with textContent hi. -/
theorem meta_example_rewrite_and_tree (B : String) :
    sanitizeHTML "<div><meta charset=\"utf-8\"><p>hi</p></div>" B
        = "<div><p>hi</p></div>" ∧
    parseHTMLToTree (sanitizeHTML "<div><meta charset=\"utf-8\"><p>hi</p></div>" B)
      = [TreeNode.mk "head" [] none "",
         TreeNode.mk "body"
           [TreeNode.mk "div" [TreeNode.mk "p" [] none "hi"] none ""] none ""] := by
  have hs : sanitizeHTML "<div><meta charset=\"utf-8\"><p>hi</p></div>" B
      = "<div><p>hi</p></div>" := by
    rw [sanitizeHTML, substPasses_id _ _
      (noOccur_iff.mpr (by decide))
      (noOccur_iff.mpr (by decide))
      (noOccur_iff.mpr (by decide))]
    decide
  exact ⟨hs, by rw [hs]; rfl⟩

/-- Claim C5, counterexample: the post-processor leaves the claim's input
unchanged, because the proxied-image regex hard-codes the host
www.orchids.app and the width and quality parameters of the input are not
ampersand-escaped; in particular it does not yield the claimed decoded
output. -/
theorem postprocessor_claim_host_unchanged :
    renderedCloneHtml
        "src=\"https://site/_next/image?url=https%3A%2F%2Fcdn%2Fimg.png&w=640&q=75\""
      = "src=\"https://site/_next/image?url=https%3A%2F%2Fcdn%2Fimg.png&w=640&q=75\"" ∧
    renderedCloneHtml
        "src=\"https://site/_next/image?url=https%3A%2F%2Fcdn%2Fimg.png&w=640&q=75\""
      ≠ "src=\"https://cdn/img.png\"" :=
  ⟨by decide, by decide⟩

/-- Claim C5, amended: with the hard-coded proxy host www.orchids.app the
post-processor URL-decodes the encoded target and substitutes it as the src
value, discarding the proxy wrapper and the trailing width and quality
parameters. -/
theorem postprocessor_rewrites_orchids_proxy :
    renderedCloneHtml
        "src=\"https://www.orchids.app/_next/image?url=https%3A%2F%2Fcdn%2Fimg.png&w=640&q=75\""
      = "src=\"https://cdn/img.png\"" := by decide

/-- Claim C6, counterexample: the fence-stripping step is a pair of global
replaces, so a triple-backtick sequence in the middle of the input, which
forms no wrapper, is removed rather than left intact. -/
theorem fence_strip_hits_inner_ticks :
    stripCodeFences "x```y" ≠ "x```y" := by decide

/-- Claim C6, amended: the fence-stripping step removes every occurrence of
the opener pattern (three backticks, the tag html, an optional newline) and
every occurrence of an optional newline followed by three backticks,
globally; in particular, on a backtick-free body wrapped in one fence it
strips exactly that wrapper. -/
theorem fence_strip_removes_single_wrapper (s : String)
    (h : backtick ∉ s.data) :
    stripCodeFences ("```html\n" ++ s ++ "\n```") = s := by
  rw [stripCodeFences]
  have hd : ("```html\n" ++ s ++ "\n```").data
      = (fenceOpener ++ ['\n']) ++ (s.data ++ ('\n' :: fenceTicks)) := by
    rw [String.data_append, String.data_append,
      show "```html\n".data = fenceOpener ++ ['\n'] from by decide,
      show "\n```".data = '\n' :: fenceTicks from by decide,
      List.append_assoc]
  rw [hd, openers_run s.data h, runScan,
    closers_run s.data h _ (by simp [fenceTicks])]

/-- Witness for the amended claim C6 at a concrete wrapped body. -/
theorem fence_strip_removes_single_wrapper_witness :
    backtick ∉ "<p>hi</p>".data ∧
    stripCodeFences ("```html\n" ++ "<p>hi</p>" ++ "\n```") = "<p>hi</p>" :=
  ⟨by decide, fence_strip_removes_single_wrapper "<p>hi</p>" (by decide)⟩

/-- Claim C7, counterexample: the /videos/ passes are reachable for some
base URLs: a base containing the characters src=" makes the bare-slash pass
emit a fresh src="/videos/ occurrence, which the /videos/ pass then rewrites
again, so the full rewriter and the rewriter without the /videos/ passes
disagree. -/
theorem videos_passes_reachable_adversarial_base :
    sanitizeHTMLNoVideos "src=\"/videos/a" "xsrc=\""
      ≠ sanitizeHTML "src=\"/videos/a" "xsrc=\"" := by decide

/-- Claim C7, amended: for every html and every GoodBase base URL the
/videos/ passes are unreachable: the bare-slash passes have already consumed
every trigger occurrence, so the rewriter without the three /videos/
substitutions computes the same output as the full rewriter. -/
theorem videos_passes_redundant_good_base (h B : String)
    (hG : GoodBase B.data) :
    sanitizeHTMLNoVideos h B = sanitizeHTML h B := by
  rw [sanitizeHTML, sanitizeHTMLNoVideos, substPasses_eq_noVideos _ _ hG]

/-- Witness for the amended claim C7 at a concrete input and base. -/
theorem videos_passes_redundant_good_base_witness :
    sanitizeHTMLNoVideos "<video src=\"/videos/v.mp4\">" "https://ex.com"
      = sanitizeHTML "<video src=\"/videos/v.mp4\">" "https://ex.com" :=
  videos_passes_redundant_good_base _ _ (by decide)

/-- Claim C8: toggling a node's expand state along any path changes only
presentation state: stripping the presentation flags from the toggled tree
yields exactly the stripped original tree, so tag names, attributes, text
content and children of every node are unchanged. -/
theorem toggle_preserves_tree_structure (p : List Nat) (v : ViewNode) :
    stripViewNode (toggleAt p v) = stripViewNode v := by
  induction p generalizing v with
  | nil =>
    rcases v with ⟨nm, attrs, content, expanded, ch⟩
    simp only [toggleAt, stripViewNode]
  | cons i p ih =>
    rcases v with ⟨nm, attrs, content, expanded, ch⟩
    simp only [toggleAt, stripViewNode]
    rw [stripViewList_modifyChild (toggleAt p) ih i ch]

/-- Claim C9: the tag-removal pass strips opening tags of any element whose
name merely begins with a removal-set name: for every base URL, the opening
metadata tag is deleted by the meta pattern while the closing metadata tag
survives. -/
theorem open_tag_removal_hits_name_extensions (B : String) :
    sanitizeHTML "<metadata id=\"x\">hi</metadata>" B = "hi</metadata>" := by
  rw [sanitizeHTML, substPasses_id _ _
    (noOccur_iff.mpr (by decide))
    (noOccur_iff.mpr (by decide))
    (noOccur_iff.mpr (by decide))]
  decide


/-
General lemmas for the protocol-relative claim: a global replace whose
pattern extends the replacement's own delimiter never shrinks the string,
strictly grows it when the pattern occurs and the replacement is longer, and
turns every occurrence of the pattern followed by a second slash into the
replacement followed by that slash.
-/

theorem scanPass_length_ge (pat rep : List Char) (h : pat.length ≤ rep.length) :
    ∀ (n : Nat) (s : List Char),
      s.length ≤ (scanPass (replStep pat rep) n s).length := by
  intro n
  induction n with
  | zero => intro s; exact Nat.le_refl _
  | succ n ih =>
    intro s
    match s with
    | [] => exact Nat.le_refl _
    | c :: cs =>
      by_cases hm : pat <+: c :: cs
      · rw [show scanPass (replStep pat rep) (n + 1) (c :: cs) =
            rep ++ scanPass (replStep pat rep) n ((c :: cs).drop pat.length)
            by simp [scanPass, replStep, List.isPrefixOf_iff_prefix, hm]]
        have h1 := ih ((c :: cs).drop pat.length)
        have h2 := hm.length_le
        simp only [List.length_append, List.length_drop] at h1 ⊢
        omega
      · rw [show scanPass (replStep pat rep) (n + 1) (c :: cs) =
            c :: scanPass (replStep pat rep) n cs
            by simp [scanPass, replStep, List.isPrefixOf_iff_prefix, hm]]
        have h1 := ih cs
        simp only [List.length_cons]
        omega

theorem scanPass_length_gt (pat rep : List Char) (hpat : pat ≠ [])
    (h : pat.length < rep.length) :
    ∀ (n : Nat) (s : List Char), s.length ≤ n → pat <:+: s →
      s.length < (scanPass (replStep pat rep) n s).length := by
  intro n
  induction n with
  | zero =>
    intro s hs hocc
    have hnil : s = [] := List.length_eq_zero.mp (Nat.le_zero.mp hs)
    subst hnil
    rw [List.infix_nil] at hocc
    exact absurd hocc hpat
  | succ n ih =>
    intro s hs hocc
    match s with
    | [] =>
      rw [List.infix_nil] at hocc
      exact absurd hocc hpat
    | c :: cs =>
      by_cases hm : pat <+: c :: cs
      · rw [show scanPass (replStep pat rep) (n + 1) (c :: cs) =
            rep ++ scanPass (replStep pat rep) n ((c :: cs).drop pat.length)
            by simp [scanPass, replStep, List.isPrefixOf_iff_prefix, hm]]
        have h1 := scanPass_length_ge pat rep (Nat.le_of_lt h) n
          ((c :: cs).drop pat.length)
        have h2 := hm.length_le
        simp only [List.length_append, List.length_drop] at h1 ⊢
        omega
      · rw [show scanPass (replStep pat rep) (n + 1) (c :: cs) =
            c :: scanPass (replStep pat rep) n cs
            by simp [scanPass, replStep, List.isPrefixOf_iff_prefix, hm]]
        rw [List.infix_iff_prefix_suffix] at hocc
        obtain ⟨t, hp, hsuf⟩ := hocc
        rcases List.suffix_cons_iff.mp hsuf with rfl | h5
        · exact absurd hp hm
        · have hlen : cs.length ≤ n := by
            simp only [List.length_cons] at hs; omega
          have := ih cs hlen (List.infix_iff_prefix_suffix.mpr ⟨t, hp, h5⟩)
          simp only [List.length_cons]
          omega

/-- The bare-slash pass turns every occurrence of its pattern followed by a
second slash into the replacement followed by that slash: an occurrence of
the delimiter and two slashes in the input yields an occurrence of the
delimiter, base and two slashes in the output. -/
theorem scanPass_protRel (key B : List Char) (hk : key ≠ [])
    (hkh : key.head? ≠ some '/')
    (hov : ∀ x r, x <:+ key ++ ['/'] → x ≠ [] → x ≠ key ++ ['/'] →
      ¬ (key ++ ['/', '/']) <+: x ++ r) :
    ∀ (n : Nat) (s : List Char), s.length ≤ n → (key ++ ['/', '/']) <:+: s →
      (key ++ B ++ ['/', '/']) <:+:
        scanPass (replStep (key ++ ['/']) (key ++ B ++ ['/'])) n s := by
  have hsplit : key ++ ['/', '/'] = (key ++ ['/']) ++ ['/'] := by
    rw [List.append_assoc]; rfl
  intro n
  induction n with
  | zero =>
    intro s hs hocc
    have hnil : s = [] := List.length_eq_zero.mp (Nat.le_zero.mp hs)
    subst hnil
    rw [List.infix_nil] at hocc
    exact absurd hocc (by simp)
  | succ n ih =>
    intro s hs hocc
    match s with
    | [] =>
      rw [List.infix_nil] at hocc
      exact absurd hocc (by simp)
    | c :: cs =>
      by_cases hm : (key ++ ['/']) <+: c :: cs
      · have hstep1 : replStep (key ++ ['/']) (key ++ B ++ ['/']) (c :: cs)
            = some (key ++ B ++ ['/'], (c :: cs).drop (key ++ ['/']).length) := by
          rw [replStep, if_pos (List.isPrefixOf_iff_prefix.mpr hm)]
        rw [scanPass_cons_some _ _ _ _ hstep1]
        obtain ⟨rest, hrest⟩ := hm
        have hrem : (c :: cs).drop (key ++ ['/']).length = rest := by
          rw [← hrest, List.drop_left]
        rw [hrem]
        rw [List.infix_iff_prefix_suffix] at hocc
        obtain ⟨t, hp, hsuf⟩ := hocc
        rw [← hrest] at hsuf
        rcases suffix_append_cases hsuf with h1 | ⟨x, hx, hxne, rfl⟩
        · have hoccr : (key ++ ['/', '/']) <:+: rest :=
            List.infix_iff_prefix_suffix.mpr ⟨t, hp, h1⟩
          have hlenr : rest.length ≤ n := by
            have h2 := congrArg List.length hrest
            simp only [List.length_append, List.length_cons] at h2 hs
            omega
          exact (ih rest hlenr hoccr).trans
            (List.suffix_append (key ++ B ++ ['/']) _).isInfix
        · by_cases hxf : x = key ++ ['/']
          · subst hxf
            have hslash : ∃ rest₂, rest = '/' :: rest₂ := by
              rw [hsplit] at hp
              have h6 : (['/'] : List Char) <+: rest :=
                (List.prefix_append_right_inj (key ++ ['/'])).mp hp
              rcases rest with _ | ⟨d, r2⟩
              · exact absurd (List.prefix_nil.mp h6) (by simp)
              · rw [List.cons_prefix_cons] at h6
                exact ⟨r2, by rw [← h6.1]⟩
            obtain ⟨rest₂, rfl⟩ := hslash
            have hstep2 : replStep (key ++ ['/']) (key ++ B ++ ['/'])
                ('/' :: rest₂) = none := by
              rw [replStep, if_neg]
              simp only [List.isPrefixOf_iff_prefix]
              intro hpp
              match key, hk with
              | k0 :: key', _ =>
                rw [List.cons_append, List.cons_prefix_cons] at hpp
                exact hkh (by rw [hpp.1]; rfl)
            rcases n with _ | m
            · exfalso
              have h2 := congrArg List.length hrest
              simp only [List.length_append, List.length_cons] at h2 hs
              omega
            · rw [scanPass_cons_none _ _ _ _ hstep2]
              apply List.IsPrefix.isInfix
              rw [show key ++ B ++ ['/', '/'] = (key ++ B ++ ['/']) ++ ['/']
                  from by simp]
              exact (List.prefix_append_right_inj _).mpr
                (List.cons_prefix_cons.mpr ⟨rfl, List.nil_prefix⟩)
          · exact absurd hp (hov x rest hx hxne hxf)
      · have hstep : replStep (key ++ ['/']) (key ++ B ++ ['/']) (c :: cs)
            = none := by
          rw [replStep, if_neg]
          simpa [List.isPrefixOf_iff_prefix] using hm
        rw [scanPass_cons_none _ _ _ _ hstep]
        rw [List.infix_iff_prefix_suffix] at hocc
        obtain ⟨t, hp, hsuf⟩ := hocc
        rcases List.suffix_cons_iff.mp hsuf with rfl | h5
        · refine absurd ?_ hm
          refine List.IsPrefix.trans ?_ hp
          rw [hsplit]
          exact List.prefix_append _ _
        · have hlen : cs.length ≤ n := by
            simp only [List.length_cons] at hs; omega
          exact ((ih cs hlen (List.infix_iff_prefix_suffix.mpr ⟨t, hp, h5⟩)).trans
            (List.suffix_cons c _).isInfix)

theorem protRel_overlap_src :
    ∀ x r, x <:+ srcKey ++ ['/'] → x ≠ [] → x ≠ srcKey ++ ['/'] →
      ¬ (srcKey ++ ['/', '/']) <+: x ++ r := by
  intro x r hx hne hnf hp
  simp only [srcKey, List.cons_append, List.nil_append] at hx hnf
  simp only [List.suffix_cons_iff, List.suffix_nil] at hx
  rcases hx with rfl | rfl | rfl | rfl | rfl | rfl | rfl
  · exact hnf rfl
  all_goals
    first
    | exact hne rfl
    | · simp only [srcKey, List.cons_append, List.nil_append,
          List.cons_prefix_cons] at hp
        exact absurd hp.1 (by decide)

theorem protRel_overlap_href :
    ∀ x r, x <:+ hrefKey ++ ['/'] → x ≠ [] → x ≠ hrefKey ++ ['/'] →
      ¬ (hrefKey ++ ['/', '/']) <+: x ++ r := by
  intro x r hx hne hnf hp
  simp only [hrefKey, List.cons_append, List.nil_append] at hx hnf
  simp only [List.suffix_cons_iff, List.suffix_nil] at hx
  rcases hx with rfl | rfl | rfl | rfl | rfl | rfl | rfl | rfl
  · exact hnf rfl
  all_goals
    first
    | exact hne rfl
    | · simp only [hrefKey, List.cons_append, List.nil_append,
          List.cons_prefix_cons] at hp
        exact absurd hp.1 (by decide)

theorem protRel_overlap_url :
    ∀ x r, x <:+ urlKey ++ ['/'] → x ≠ [] → x ≠ urlKey ++ ['/'] →
      ¬ (urlKey ++ ['/', '/']) <+: x ++ r := by
  intro x r hx hne hnf hp
  simp only [urlKey, List.cons_append, List.nil_append] at hx hnf
  simp only [List.suffix_cons_iff, List.suffix_nil] at hx
  rcases hx with rfl | rfl | rfl | rfl | rfl | rfl
  · exact hnf rfl
  all_goals
    first
    | exact hne rfl
    | · simp only [urlKey, List.cons_append, List.nil_append,
          List.cons_prefix_cons] at hp
        exact absurd hp.1 (by decide)

/-- One bare-slash pass on a string containing a protocol-relative
reference: the output contains the delimiter, base and double slash, and it
differs from the input whenever the base is non-empty. -/
theorem barePass_protRel (key B s : List Char) (hk : key ≠ [])
    (hkh : key.head? ≠ some '/')
    (hov : ∀ x r, x <:+ key ++ ['/'] → x ≠ [] → x ≠ key ++ ['/'] →
      ¬ (key ++ ['/', '/']) <+: x ++ r)
    (hocc : (key ++ ['/', '/']) <:+: s) :
    (key ++ B ++ ['/', '/']) <:+: replaceAll (key ++ ['/']) (key ++ B ++ ['/']) s
    ∧ (B ≠ [] → replaceAll (key ++ ['/']) (key ++ B ++ ['/']) s ≠ s) := by
  constructor
  · exact scanPass_protRel key B hk hkh hov s.length s (Nat.le_refl _) hocc
  · intro hB heq
    have hoccp : (key ++ ['/']) <:+: s := by
      refine List.IsInfix.trans ?_ hocc
      refine List.IsPrefix.isInfix ?_
      rw [show key ++ ['/', '/'] = (key ++ ['/']) ++ ['/']
          by rw [List.append_assoc]; rfl]
      exact List.prefix_append _ _
    have hlt := scanPass_length_gt (key ++ ['/']) (key ++ B ++ ['/'])
      (by simp) (by simp [List.length_append]; exact List.length_pos.mpr hB)
      s.length s (Nat.le_refl _) hoccp
    rw [show scanPass (replStep (key ++ ['/']) (key ++ B ++ ['/'])) s.length s
        = replaceAll (key ++ ['/']) (key ++ B ++ ['/']) s from rfl, heq] at hlt
    exact absurd hlt (Nat.lt_irrefl _)

/-- Claim C10: for every input containing a protocol-relative reference,
in any of the three forms src="//, href="// or url(//, and every base URL
without a dollar sign (a dollar would trigger JavaScript replacement-string
expansion, outside this embedding), the corresponding bare-slash pass
matches at the reference's leading slash: its output contains the delimiter,
the base URL and the double slash, and whenever the base URL is non-empty
the pass does not leave the input unchanged. -/
theorem bare_passes_rewrite_protocol_relative (s B : List Char)
    (_hdollar : '$' ∉ B) :
    ((srcKey ++ ['/', '/']) <:+: s →
      (srcKey ++ B ++ ['/', '/']) <:+: replaceAll srcT (srcKey ++ B ++ ['/']) s
      ∧ (B ≠ [] → replaceAll srcT (srcKey ++ B ++ ['/']) s ≠ s)) ∧
    ((hrefKey ++ ['/', '/']) <:+: s →
      (hrefKey ++ B ++ ['/', '/']) <:+: replaceAll hrefT (hrefKey ++ B ++ ['/']) s
      ∧ (B ≠ [] → replaceAll hrefT (hrefKey ++ B ++ ['/']) s ≠ s)) ∧
    ((urlKey ++ ['/', '/']) <:+: s →
      (urlKey ++ B ++ ['/', '/']) <:+: replaceAll urlT (urlKey ++ B ++ ['/']) s
      ∧ (B ≠ [] → replaceAll urlT (urlKey ++ B ++ ['/']) s ≠ s)) := by
  refine ⟨fun hocc => ?_, fun hocc => ?_, fun hocc => ?_⟩
  · exact barePass_protRel srcKey B s (by simp [srcKey]) (by decide)
      protRel_overlap_src hocc
  · exact barePass_protRel hrefKey B s (by simp [hrefKey]) (by decide)
      protRel_overlap_href hocc
  · exact barePass_protRel urlKey B s (by simp [urlKey]) (by decide)
      protRel_overlap_url hocc

/-- Witness for claim C10 at a concrete protocol-relative input and base,
for each of the three reference forms. -/
theorem bare_passes_rewrite_protocol_relative_witness :
    ((srcKey ++ "https://ex.com".data ++ ['/', '/']) <:+:
      replaceAll srcT (srcKey ++ "https://ex.com".data ++ ['/'])
        "<img src=\"//cdn.ex/a.png\">".data
    ∧ replaceAll srcT (srcKey ++ "https://ex.com".data ++ ['/'])
        "<img src=\"//cdn.ex/a.png\">".data ≠ "<img src=\"//cdn.ex/a.png\">".data)
    ∧ ((hrefKey ++ "https://ex.com".data ++ ['/', '/']) <:+:
      replaceAll hrefT (hrefKey ++ "https://ex.com".data ++ ['/'])
        "<a href=\"//cdn.ex/p\">".data
    ∧ replaceAll hrefT (hrefKey ++ "https://ex.com".data ++ ['/'])
        "<a href=\"//cdn.ex/p\">".data ≠ "<a href=\"//cdn.ex/p\">".data)
    ∧ ((urlKey ++ "https://ex.com".data ++ ['/', '/']) <:+:
      replaceAll urlT (urlKey ++ "https://ex.com".data ++ ['/'])
        "body { background: url(//cdn.ex/b.png); }".data
    ∧ replaceAll urlT (urlKey ++ "https://ex.com".data ++ ['/'])
        "body { background: url(//cdn.ex/b.png); }".data
      ≠ "body { background: url(//cdn.ex/b.png); }".data) := by
  have h1 := (bare_passes_rewrite_protocol_relative
    "<img src=\"//cdn.ex/a.png\">".data "https://ex.com".data (by decide)).1
    (by decide)
  have h2 := (bare_passes_rewrite_protocol_relative
    "<a href=\"//cdn.ex/p\">".data "https://ex.com".data (by decide)).2.1
    (by decide)
  have h3 := (bare_passes_rewrite_protocol_relative
    "body { background: url(//cdn.ex/b.png); }".data
    "https://ex.com".data (by decide)).2.2 (by decide)
  exact ⟨⟨h1.1, h1.2 (by decide)⟩, ⟨h2.1, h2.2 (by decide)⟩,
    ⟨h3.1, h3.2 (by decide)⟩⟩
